import Mathlib

/-
Verification of the record-merging engine of CARET_analyze
(`src/caret_analyze/record/record.py`).

The Python data model is embedded shallowly:

* a `Record` (one row) wraps a Python `dict[str, int]`; we model the dict as
  an insertion-ordered association list with unique keys, which is exactly
  the observable behaviour of a CPython dict (assignment to an existing key
  keeps its position, assignment to a fresh key appends at the end);
* a `Records` (the table) is the ordered row list plus the ordered list of
  column names.  `column.py` (ColumnValue / Column / Columns / UniqueList) is
  not among the provided sources, so the column collection is modelled from
  the specification where its behaviour matters; each such definition carries
  a doc comment starting with "Modelled from the spec:";
* Python exceptions become `Except` / explicit error components.  The error
  kinds follow section 7 of the specification; in the Python source most of
  them are a single `InvalidArgumentError` with distinct messages, and
  `assertionError` models a failing `assert` statement;
* Python `list.sort(key=...)` is a stable sort by the key tuple.  A stable
  keyed sort is extensionally unique, and `List.insertionSort` with the weak
  key order is stable, so it is used as the model of `list.sort`.
-/

namespace Caret

/-- Error kinds of the engine, named after the specification (section 7).
In the Python source most are raised as `InvalidArgumentError` with distinct
messages; `assertionError` is a failing `assert`, and `indexError` is a
Python `IndexError` from indexing a list out of range. -/
inductive Err where
  | unknownColumn
  | duplicateColumn
  | lengthMismatch
  | outOfRange
  | invalidHow
  | invalidArgument
  | assertionError
  | indexError
deriving DecidableEq, Repr

/-- Decidable equality of `Except` results, so that concrete runs of the
embedded operations can be settled by `decide`. -/
instance {ε α : Type} [DecidableEq ε] [DecidableEq α] : DecidableEq (Except ε α) :=
  fun x y =>
  match x, y with
  | .error a, .error b =>
    if h : a = b then isTrue (congrArg Except.error h)
    else isFalse (fun hc => h (Except.error.inj hc))
  | .ok a, .ok b =>
    if h : a = b then isTrue (congrArg Except.ok h)
    else isFalse (fun hc => h (Except.ok.inj hc))
  | .error _, .ok _ => isFalse (fun hc => Except.noConfusion hc)
  | .ok _, .error _ => isFalse (fun hc => Except.noConfusion hc)

/-- The sentinel `maxsize = 2**64 - 1` used by the source for missing values
in sort keys and join keys. -/
def maxsize : Int := 2 ^ 64 - 1

/-- One row: `Record._data`, a Python `dict[str, int]`, modelled as an
insertion-ordered association list with unique keys. -/
abbrev Record := List (String × Int)

namespace Record

/-- The key set (`Record.columns` in the source; a Python `set`, but only
membership and iteration order over the dict are observable). -/
def keys (r : Record) : List String := r.map Prod.fst

/-- Dictionary lookup: `self._data[key]` / `self._data.get(key)`. -/
def get? (k : String) : Record → Option Int
  | [] => none
  | (k', v) :: r => if k' = k then some v else get? k r

/-- `Record.get_with_default(key, v)`: `self._data.get(key, v)`. -/
def getWithDefault (k : String) (d : Int) (r : Record) : Int :=
  (r.get? k).getD d

/-- `Record.add(key, stamp)`: dict assignment.  Assignment to an existing key
keeps its position, a fresh key is appended at the end (CPython dict). -/
def add (k : String) (v : Int) : Record → Record
  | [] => [(k, v)]
  | (k', v') :: r => if k' = k then (k, v) :: r else (k', v') :: add k v r

/-- `Record.merge(other)`: `self._data.update(other.data)` — iterate the
entries of `other` in order, assigning each; on a conflict `other` wins. -/
def merge (self other : Record) : Record :=
  other.foldl (fun acc kv => acc.add kv.1 kv.2) self

/-- `Record.drop_columns(columns)`: delete every listed key that is
present; the remaining entries keep their relative order. -/
def dropColumns (cols : List String) (r : Record) : Record :=
  r.filter (fun kv => ¬ cols.contains kv.1)

end Record

/-- Lexicographic order on Python int tuples (`tuple.__lt__` and friends),
restricted to `≤`.  Tuples compared by the source always have equal length
(one component per sort key). -/
def lexLe : List Int → List Int → Bool
  | [], _ => true
  | _ :: _, [] => false
  | a :: as, b :: bs => if a < b then true else if b < a then false else lexLe as bs

/-- The sort key tuple of one row: `tuple(record.get_with_default(k, maxsize)
for k in keys)`, negated componentwise when `ascending` is false
(`Records.sort`, record.py lines 209-226). -/
def pySortKey (keys : List String) (ascending : Bool) (r : Record) : List Int :=
  if ascending then keys.map (fun k => r.getWithDefault k maxsize)
  else keys.map (fun k => -(r.getWithDefault k maxsize))

/-- Python `list.sort(key=key_func)`: the stable sort by the key tuple.
A stable keyed sort is extensionally unique and `List.insertionSort` with
the weak key order is stable, so it models `list.sort` exactly. -/
def pyStableSort (keys : List String) (ascending : Bool) (data : List Record) :
    List Record :=
  data.insertionSort
    (fun a b => lexLe (pySortKey keys ascending a) (pySortKey keys ascending b) = true)

/-- Modelled from the spec: `column.py` is not among the provided sources.
Per section 3 a `ColumnValue` is `{name, attributes, mapper}`; attributes and
mappers influence only external presentation (`to_dataframe`), never the row
data handled by the operations verified here, so the model keeps the name. -/
structure ColumnValue where
  name : String
deriving DecidableEq, Repr

/-- Modelled from the spec: `UniqueList` (column.py).  The keyed and
sequential merges use it to build the output column list as the ordered
union with duplicates collapsed to their first occurrence (section 4.5:
"Output columns = ordered union ... duplicates by name collapsed, order =
first occurrence"). -/
def uniqueList {α : Type} [DecidableEq α] (xs : List α) : List α :=
  xs.foldl (fun acc x => if acc.contains x then acc else acc ++ [x]) []

/-- The table: `Records`, an ordered row list plus its column collection.
The column collection (`Columns`) is reduced to the ordered list of column
names; attributes and mappers do not affect the verified operations. -/
structure Records where
  columns : List String
  data : List Record
deriving DecidableEq, Repr

namespace Records

/-- `Records._validate(init, columns)`: raise on a row containing a column
name outside `columns`, then on duplicated column names (record.py lines
148-177). -/
def validate (init : List Record) (columns : List String) : Option Err :=
  if init.any (fun r => r.keys.any (fun k => ¬ columns.contains k)) then
    some .unknownColumn
  else if columns.Nodup then none
  else some .duplicateColumn

/-- `Records.append(record)`: reject a row with an unknown column, else push
it at the end (record.py lines 234-240). -/
def append (R : Records) (r : Record) : Except Err Records :=
  if r.keys.all (fun k => R.columns.contains k) then
    .ok { R with data := R.data ++ [r] }
  else .error .unknownColumn

/-- `Records.concat(other)`: reject when `other` has a column unknown to
`self`, else append the rows of `other` in order (record.py lines 242-252).
The mapper union performed by `_concat_columns` has no effect on row data
and is omitted. -/
def concat (R : Records) (other : Records) : Except Err Records :=
  if other.columns.all (fun k => R.columns.contains k) then
    .ok { R with data := R.data ++ other.data }
  else .error .unknownColumn

/-- `Records._drop_columns(columns)`: drop the listed keys from every row
(record.py lines 280-288). -/
def dropColumnsRows (R : Records) (cols : List String) : Records :=
  { R with data := R.data.map (Record.dropColumns cols) }

/-- Modelled from the spec: `Columns.drop` (column.py is not among the
sources).  Section 4.3: the owning Records's `on_column_dropped` callback is
invoked by its Columns "whenever the column collection mutates", i.e. once
per column actually removed; a requested name absent from the collection
does not mutate it and fires no callback.  Returns the remaining collection
and the dropped names (for which the observer then drops the row cells). -/
def columnsDrop (colNames names : List String) : List String × List String :=
  (colNames.filter (fun c => ¬ names.contains c),
   colNames.filter (fun c => names.contains c))

/-- `records.columns.drop(names)` observed at the Records level: the
collection loses the named columns it contains, and for each of those the
observer `on_column_dropped` drops the cells of every row. -/
def columnsDropWithObserver (R : Records) (names : List String) : Records :=
  { columns := (columnsDrop R.columns names).1,
    data := R.data.map (Record.dropColumns (columnsDrop R.columns names).2) }

/-- `Records.append_column(column, values)` (record.py lines 304-316).
Returns the post-call state together with the raised error, if any: the
length check fires before any write, so the state is untouched on failure.
Appending the column to the collection is `Columns` extension; modelled from
the spec, extension by an already-present name raises `DuplicateColumn`
(section 7) before any write. -/
def appendColumn (R : Records) (cv : ColumnValue) (values : List Int) :
    Records × Option Err :=
  if values.length ≠ R.data.length then (R, some .lengthMismatch)
  else if R.columns.contains cv.name then (R, some .duplicateColumn)
  else
    ({ columns := R.columns ++ [cv.name],
       data := R.data.zipWith (fun r v => r.add cv.name v) values }, none)

/-- `Records.append_column` as an `Except`, for call sites that propagate
the exception. -/
def appendColumnE (R : Records) (cv : ColumnValue) (values : List Int) :
    Except Err Records :=
  match appendColumn R cv values with
  | (_, some e) => .error e
  | (R', none) => .ok R'

/-- Python list indexing `l[i]` including negative indices: `l[-1]` is the
last element; an index below `-len(l)` is an `IndexError`. -/
def pyGetElem {α : Type} (l : List α) (i : Int) : Option α :=
  if 0 ≤ i then l.get? i.toNat
  else if 0 ≤ i + l.length then l.get? (i + l.length).toNat
  else none

/-- `Records.get_row_series(index)` (record.py lines 360-363): raise
`OutOfRange` ("index exceeds the row size", an `InvalidArgumentError` mapped
to the spec's OutOfRange kind) when `index >= len(self.data)`, else return
`self.data[index]` with Python indexing semantics. -/
def getRowSeries (R : Records) (index : Int) : Except Err Record :=
  if (R.data.length : Int) ≤ index then .error .outOfRange
  else
    match pyGetElem R.data index with
    | some r => .ok r
    | none => .error .indexError

/-- `Records.sort(key, ascending)` (record.py lines 193-228): `assert
len(keys) > 0`, then stable sort by the key tuple, negated componentwise
when descending. -/
def sort (R : Records) (keys : List String) (ascending : Bool) :
    Except Err Records :=
  if keys = [] then .error .assertionError
  else .ok { R with data := pyStableSort keys ascending R.data }

/-- The join/group key tuple of one row: `tuple(record.get_with_default(c,
2**64 - 1) for c in columns)`. -/
def keyTuple (columns : List String) (r : Record) : List Int :=
  columns.map (fun c => r.getWithDefault c maxsize)

/-- Lookup in an insertion-ordered association list keyed by key tuples (a
Python dict whose keys are tuples). -/
def aget {β : Type} (k : List Int) : List (List Int × β) → Option β
  | [] => none
  | (k', v) :: gs => if k' = k then some v else aget k gs

/-- One step of `Records.groupby`: if the tuple is new, create
`Records(None, self.columns.to_value())` and append the row to it, else
append the row to the existing group.  New dict keys go to the end
(insertion order). -/
def groupUpdate (cols : List String) (k : List Int) (r : Record) :
    List (List Int × Records) → List (List Int × Records)
  | [] => [(k, { columns := cols, data := [r] })]
  | (k', g) :: gs =>
    if k' = k then (k', { g with data := g.data ++ [r] }) :: gs
    else (k', g) :: groupUpdate cols k r gs

/-- The row loop of `Records.groupby` (record.py lines 903-913).  Each row's
insertion goes through `Records.append`, whose unknown-column check can
raise; group creation re-validates the column list (duplicate check). -/
def groupbyGo (cols : List String) (keys : List String) :
    List Record → List (List Int × Records) →
    Except Err (List (List Int × Records))
  | [], gs => .ok gs
  | r :: rest, gs =>
    let k := keyTuple keys r
    match (if (aget k gs).isSome then none else validate [] cols) with
    | some e => .error e
    | none =>
      if r.keys.all (fun c => cols.contains c) then
        groupbyGo cols keys rest (groupUpdate cols k r gs)
      else .error .unknownColumn

/-- `Records.groupby(columns)` (record.py lines 903-913): partition the rows
by their key tuple (missing keys contribute `2**64 - 1`) into a dict of
fresh `Records` carrying the original column set. -/
def groupby (R : Records) (keys : List String) :
    Except Err (List (List Int × Records)) :=
  groupbyGo R.columns keys R.data []

/-- The inner column sweep of `bind_drop_as_delay` on one row (record.py
lines 421-426): where the row lacks a column that a prior row (in the
current order) provided, copy the carried value in; then refresh the carried
value from the row. -/
def bdadRow (cols : List String) (oldest r : Record) : Record × Record :=
  cols.foldl
    (fun (p : Record × Record) key =>
      let r₀ := p.1
      let old := p.2
      let r₁ :=
        if (r₀.get? key).isNone ∧ (old.get? key).isSome then
          r₀.add key ((old.get? key).getD 0)
        else r₀
      let old₁ :=
        if (r₁.get? key).isSome then old.add key ((r₁.get? key).getD 0)
        else old
      (r₁, old₁))
    (r, oldest)

/-- The forward sweep of `bind_drop_as_delay` over all rows, carrying the
most-recently-seen value per column. -/
def bdadSweep (cols : List String) (oldest : Record) :
    List Record → List Record
  | [] => []
  | r :: rest =>
    let p := bdadRow cols oldest r
    p.1 :: bdadSweep cols p.2 rest

/-- `Records.bind_drop_as_delay()` (record.py lines 416-428): sort
descending by all columns, sweep forward filling gaps from the carried
values, sort back ascending. -/
def bindDropAsDelay (R : Records) : Except Err Records := do
  let R₁ ← R.sort R.columns false
  let R₂ := { R₁ with data := bdadSweep R₁.columns [] R₁.data }
  R₂.sort R₂.columns true

end Records

/-
The keyed merge (`Records.merge`, record.py lines 430-583).

The Python algorithm mutates shared `Record` objects: the concatenated
working table aliases the rows of the cloned left table and of the right
input table, and temporary keys are written into those shared objects with
`record.add`.  To capture this aliasing the embedding keeps one store of row
states (indices `0..nl-1` are the cloned left rows, `nl..` are the right
input's rows, shared with the input), a sorted index order, and represents
each emitted row as either a reference into the store or a fresh record.
The result carries the final state of both inputs so that frame effects are
provable.
-/

/-- One merged output row of the keyed merge: `merged_record =
deepcopy(record); merged_record.merge(left_record)` (record.py lines
556-557) — the right row is deep-copied and the left row is overlaid onto
the copy, so on a shared column name the left row's value wins. -/
def mergedPairRow (rightRow leftRow : Record) : Record :=
  rightRow.merge leftRow

/-- Overwrite the row at index `i` of the store (mutation of a shared
Python object). -/
def storeModify (store : List Record) (i : Nat) (f : Record → Record) :
    List Record :=
  store.set i (f (store.getD i []))

/-- State of the keyed-merge scan (record.py lines 512-563): the row store,
the current bucket `left_records_`, `processed_stamps`, `empty_records`
(references into the store), and the emitted rows of `merged_records`
(`Sum.inl i` is the shared row object at store index `i`, `Sum.inr r` a
fresh record). -/
structure KScanState where
  store : List Record
  bucket : List Nat
  processed : List (List Int)
  empty : List Nat
  merged : List (Sum Nat Record)

/-- `move_left_to_empty` (record.py lines 524-530): move every bucket left
whose `_tmp_found_right_record` is `False` to the empty set. -/
def kFlush (st : KScanState) : KScanState :=
  { st with
    empty := st.empty ++ st.bucket.filter
      (fun i => (st.store.getD i []).get? "_tmp_found_right_record" == some 0) }

/-- One iteration of the keyed-merge scan over the sorted concatenated table
(record.py lines 532-561), processing the row at store index `i`. -/
def kScanStep (joinKeyCols : List String) (st : KScanState) (i : Nat) :
    KScanState :=
  let r := st.store.getD i []
  if r.get? "_tmp_has_valid_join_key" = some 0 then
    { st with empty := st.empty ++ [i] }
  else
    let jv := joinKeyCols.map (fun c => r.getWithDefault c 0)
    let st :=
      if st.processed.contains jv then st
      else { kFlush st with bucket := [], processed := st.processed ++ [jv] }
    if r.get? "_tmp_side" = some 0 then
      { st with
        store := storeModify st.store i (Record.add "_tmp_found_right_record" 0),
        bucket := st.bucket ++ [i] }
    else
      let emit := st.bucket.foldl
        (fun (acc : List Record × List (Sum Nat Record)) ℓ =>
          let s := storeModify acc.1 ℓ (Record.add "_tmp_found_right_record" 1)
          (s, acc.2 ++ [Sum.inr (mergedPairRow r (s.getD ℓ []))]))
        (st.store, [])
      let st := { st with store := emit.1, merged := st.merged ++ emit.2 }
      if st.bucket = [] then { st with empty := st.empty ++ [i] } else st

/-- Result of the keyed merge: the returned table plus the final state of
both input tables (the left input is cloned and never touched; the right
input is mutated in place and restored on exit only where the cleanup
reaches it). -/
structure KMergeResult where
  merged : Records
  leftFinal : Records
  rightFinal : Records
deriving DecidableEq, Repr

/-- `Records.merge(right_records, join_left_key, join_right_key, how)`
(record.py lines 430-583): the keyed relational join.  Key lists are taken
as lists (the `str` overload wraps into a singleton). -/
def Records.merge (self right : Records)
    (joinLeftKeys joinRightKeys : List String) (how : String) :
    Except Err KMergeResult := do
  if ¬ joinLeftKeys.all (fun k => self.columns.contains k) then
    throw Err.invalidArgument
  if ¬ joinRightKeys.all (fun k => right.columns.contains k) then
    throw Err.invalidArgument
  if joinLeftKeys.length ≠ joinRightKeys.length then
    throw Err.invalidArgument
  let columns := uniqueList (self.columns ++ right.columns)
  match Records.validate [] columns with
  | some e => throw e
  | none => pure ()
  -- left_records = self.clone(): an independent deep copy, so the left
  -- input itself is never touched by anything below.
  let mergeLeft := ["left", "outer"].contains how
  let mergeRight := ["right", "outer"].contains how
  if ¬ ["inner", "left", "right", "outer"].contains how then
    throw Err.assertionError
  let joinKeyCols := (List.range joinLeftKeys.length).map
    (fun i => "_tmp_join_key_" ++ toString i)
  let leftR ← Records.appendColumnE self ⟨"_tmp_side"⟩
    (List.replicate self.data.length 0)
  let rightR ← Records.appendColumnE right ⟨"_tmp_side"⟩
    (List.replicate right.data.length 1)
  let tmpColumns := ["_tmp_side"] ++ joinKeyCols
  let concatColumns := uniqueList (leftR.columns ++ rightR.columns ++ tmpColumns)
  let concat₀ : Records := { columns := concatColumns, data := [] }
  let concat₁ ← concat₀.concat leftR
  let concat₂ ← concat₁.concat rightR
  let nl := leftR.data.length
  -- Tagging loop (lines 499-508); the rows are shared with leftR/rightR.
  let store := concat₂.data.map (fun r =>
    let jks := if r.get? "_tmp_side" = some 0 then joinLeftKeys else joinRightKeys
    let hv := jks.all (fun k => (r.get? k).isSome)
    let r := r.add "_tmp_has_valid_join_key" (if hv then 1 else 0)
    (List.zip joinKeyCols jks).foldl
      (fun r p => r.add p.1 (r.getWithDefault p.2 maxsize)) r)
  -- concat_records.sort(column_join_keys + [column_side]) (line 510).
  let sortKeys := joinKeyCols ++ ["_tmp_side"]
  let order := (List.range store.length).insertionSort (fun i j =>
    lexLe (pySortKey sortKeys true (store.getD i []))
      (pySortKey sortKeys true (store.getD j [])) = true)
  let st₁ := order.foldl (kScanStep joinKeyCols)
    { store := store, bucket := [], processed := [], empty := [], merged := [] }
  let st₂ := kFlush st₁
  -- Final pass over the empty set (lines 565-570).
  let mergedEntries := st₂.merged ++
    (st₂.empty.filter (fun i =>
      let side := (st₂.store.getD i []).get? "_tmp_side"
      (side == some 0 && mergeLeft) || (side == some 1 && mergeRight))).map Sum.inl
  let tempCols := ["_tmp_side", "_tmp_found_right_record",
    "_tmp_has_valid_join_key"] ++ joinKeyCols
  -- merged_records._drop_columns(temporay_columns) (line 575): row level
  -- only, reaching shared objects through the references.
  let stepA := mergedEntries.foldl
    (fun (acc : List Record × List (Sum Nat Record)) e =>
      match e with
      | Sum.inl i => (storeModify acc.1 i (Record.dropColumns tempCols),
          acc.2 ++ [Sum.inl i])
      | Sum.inr r => (acc.1, acc.2 ++ [Sum.inr (r.dropColumns tempCols)]))
    (st₂.store, [])
  -- left_records.columns.drop / right_records.columns.drop (lines 576-577):
  -- only names present in the respective collection are dropped, and the
  -- observer strips those from every row of that table.
  let leftDropped := (Records.columnsDrop leftR.columns tempCols).2
  let store₄ := (List.range nl).foldl
    (fun s i => storeModify s i (Record.dropColumns leftDropped)) stepA.1
  let rightKept := (Records.columnsDrop rightR.columns tempCols).1
  let rightDropped := (Records.columnsDrop rightR.columns tempCols).2
  let store₅ := (List.range rightR.data.length).foldl
    (fun s k => storeModify s (nl + k) (Record.dropColumns rightDropped)) store₄
  -- merged_records.columns.drop(set(column_names) - set(output)) and the
  -- reindex to the output order (lines 579-581).
  let mergedColumns := uniqueList (concatColumns ++
    ["_tmp_found_right_record", "_tmp_has_valid_join_key"])
  let extras := mergedColumns.filter (fun c => ¬ columns.contains c)
  let stepD := stepA.2.foldl
    (fun (acc : List Record × List (Sum Nat Record)) e =>
      match e with
      | Sum.inl i => (storeModify acc.1 i (Record.dropColumns extras),
          acc.2 ++ [Sum.inl i])
      | Sum.inr r => (acc.1, acc.2 ++ [Sum.inr (r.dropColumns extras)]))
    (store₅, [])
  let storeF := stepD.1
  let mergedData := stepD.2.map (fun e =>
    match e with
    | Sum.inl i => storeF.getD i []
    | Sum.inr r => r)
  pure { merged := { columns := columns, data := mergedData },
         leftFinal := self,
         rightFinal := { columns := rightKept, data := storeF.drop nl } }

/-
The sequential merge (`Records.merge_sequencial`, record.py lines 585-771).

As for the keyed merge, row objects are shared between the inputs and the
concatenated working table, so the embedding uses a store of row states
(indices `0..nl-1` are the left input's rows — this merge does NOT clone its
left input — and `nl..` the right input's rows) plus a sorted index order.

One representational note: the Python first pass stores each left row's
sub-record list inside the row itself under the key `_tmp_sub_records`
(`record.add(column_sub_records, [])`, a list-valued cell that cannot
inhabit the int-valued cell model).  The embedding carries that list in a
side table keyed by store index; the key's later removal from emitted rows
(`merged_records.columns.drop`) is modelled by never placing it in the row,
and no verified claim inspects the leaked `_tmp_sub_records` cell of the
left input's rows.
-/

/-- Assignment in a Python dict keyed by int tuples
(`to_left_records[join_value] = record`). -/
def aset {β : Type} (k : List Int) (v : β) :
    List (List Int × β) → List (List Int × β)
  | [] => [(k, v)]
  | (k', v') :: gs => if k' = k then (k, v) :: gs else (k', v') :: aset k v gs

/-- Lookup in a store-index-keyed table (the sub-record lists). -/
def nget {β : Type} (k : Nat) : List (Nat × β) → Option β
  | [] => none
  | (k', v) :: gs => if k' = k then some v else nget k gs

/-- Assignment in a store-index-keyed table. -/
def nset {β : Type} (k : Nat) (v : β) :
    List (Nat × β) → List (Nat × β)
  | [] => [(k, v)]
  | (k', v') :: gs => if k' = k then (k, v) :: gs else (k', v') :: nset k v gs

/-- `get_join_values(record)` (record.py lines 667-679): the join-key tuple
of the row, using the side's own key names, with `2**64 - 1` for a missing
key. -/
def seqJoinValues (joinLeftKeys joinRightKeys : List String) (r : Record) :
    List Int :=
  if r.get? "_tmp_side" = some 0 then
    joinLeftKeys.map (fun k => r.getWithDefault k maxsize)
  else
    joinRightKeys.map (fun k => r.getWithDefault k maxsize)

/-- State of the first pass of the sequential merge: `to_left_records`
(join tuple → store index of the last left row installed for it) and the
sub-record lists (store index of a left row → store indices of the right
rows appended to it). -/
structure SeqP1State where
  toLeft : List (List Int × Nat)
  subs : List (Nat × List Nat)

/-- One iteration of the first pass (record.py lines 684-700), processing
the pair (store index, row).  A left row with a merge stamp installs itself
for its join tuple (overwriting any earlier left) and starts an empty
sub-record list; a right row with a merge stamp appends itself to the
currently installed left for its join tuple, if any. -/
def seqStep (jlk jrk : List String) (st : SeqP1State) (x : Nat × Record) :
    SeqP1State :=
  let r := x.2
  if r.get? "_tmp_has_merge_stamp" = some 0 then st
  else if r.get? "_tmp_side" = some 0 then
    { toLeft := aset (seqJoinValues jlk jrk r) x.1 st.toLeft,
      subs := nset x.1 [] st.subs }
  else if r.get? "_tmp_side" = some 1 then
    match Records.aget (seqJoinValues jlk jrk r) st.toLeft with
    | none => st
    | some ℓ => { st with subs := nset ℓ ((nget ℓ st.subs).getD [] ++ [x.1]) st.subs }
  else st

/-- The first pass of the sequential merge over the sorted concatenated
table, presented as (store index, row) pairs in scan order. -/
def seqPass1 (jlk jrk : List String) (xs : List (Nat × Record)) : SeqP1State :=
  xs.foldl (seqStep jlk jrk) ⟨[], []⟩

/-- A row that, in the first pass of the sequential merge, installs itself
in `to_left_records` for join tuple `t`: a left-side row with a merge stamp
whose join tuple is `t`. -/
def seqInstalls (jlk jrk : List String) (r : Record) (t : List Int) : Prop :=
  ¬ r.get? "_tmp_has_merge_stamp" = some 0 ∧ r.get? "_tmp_side" = some 0 ∧
    seqJoinValues jlk jrk r = t

/-- State of the emission pass: the emitted rows (`Sum.inl i` is the shared
row at store index `i`, `Sum.inr r` a fresh merged record) and the `added`
set of store indices. -/
structure SEmitState where
  merged : List (Sum Nat Record)
  added : List Nat

/-- Python `set.add` on the added set (identity-keyed; store indices model
object identity). -/
def addedInsert (added : List Nat) (i : Nat) : List Nat :=
  if added.contains i then added else added ++ [i]

/-- The inner loop over a left row's sub-records (record.py lines 742-756),
with its break semantics: stop before the second sub-record unless
`how = left_use_latest`.  A fresh output row is `Record()` merged with the
left row then with the sub-record. -/
def seqEmitSubs (latest mergeLeft : Bool) (store : List Record) (i : Nat) :
    Nat → List Nat → SEmitState → SEmitState
  | _, [], st => st
  | k, s :: rest, st =>
    if 1 ≤ k ∧ latest = false then st
    else if st.added.contains s then
      let st' := if mergeLeft then
        SEmitState.mk (st.merged ++ [Sum.inl i]) (addedInsert st.added i)
        else st
      seqEmitSubs latest mergeLeft store i (k + 1) rest st'
    else
      let fresh := (Record.merge (Record.merge [] (store.getD i [])) (store.getD s []))
      seqEmitSubs latest mergeLeft store i (k + 1) rest
        (SEmitState.mk (st.merged ++ [Sum.inr fresh])
          (addedInsert (addedInsert st.added i) s))

/-- One iteration of the emission pass (record.py lines 711-756), processing
the row at store index `i`. -/
def seqEmitStep (latest mergeLeft mergeRight : Bool) (store : List Record)
    (subs : List (Nat × List Nat)) (st : SEmitState) (i : Nat) : SEmitState :=
  if st.added.contains i then st
  else
    let r := store.getD i []
    if r.get? "_tmp_has_merge_stamp" = some 0 ∨
        r.get? "_tmp_has_valid_join_key" = some 0 then
      if r.get? "_tmp_side" = some 1 ∧ mergeRight = true then
        SEmitState.mk (st.merged ++ [Sum.inl i]) (addedInsert st.added i)
      else if r.get? "_tmp_side" = some 0 ∧ mergeLeft = true then
        SEmitState.mk (st.merged ++ [Sum.inl i]) (addedInsert st.added i)
      else st
    else if r.get? "_tmp_side" = some 1 then
      if mergeRight then
        SEmitState.mk (st.merged ++ [Sum.inl i]) (addedInsert st.added i)
      else st
    else
      let sb := (nget i subs).getD []
      if sb = [] then
        if mergeLeft then
          SEmitState.mk (st.merged ++ [Sum.inl i]) (addedInsert st.added i)
        else st
      else seqEmitSubs latest mergeLeft store i 0 sb st

/-- Result of the sequential merge: the returned table plus the final state
of both input tables (neither input is cloned; both are mutated in place
and only partially restored on exit). -/
structure SMergeResult where
  merged : Records
  leftFinal : Records
  rightFinal : Records
deriving DecidableEq, Repr

/-- `Records.merge_sequencial(right_records, left_stamp_key,
right_stamp_key, join_left_key, join_right_key, how)` (record.py lines
585-771).  Key lists are taken as lists (`None` becomes `[]`, a `str`
wraps into a singleton). -/
def Records.merge_sequencial (self right : Records)
    (leftStampKey rightStampKey : String)
    (joinLeftKeys joinRightKeys : List String) (how : String) :
    Except Err SMergeResult := do
  if ¬ (joinLeftKeys.all (fun k => self.columns.contains k) ∧
      self.columns.contains leftStampKey) then
    throw Err.invalidArgument
  if ¬ (joinRightKeys.all (fun k => right.columns.contains k) ∧
      right.columns.contains rightStampKey) then
    throw Err.invalidArgument
  if joinLeftKeys.length ≠ joinRightKeys.length then
    throw Err.assertionError
  let columns := uniqueList (self.columns ++ right.columns)
  match Records.validate [] columns with
  | some e => throw e
  | none => pure ()
  if ¬ ["inner", "left", "right", "outer", "left_use_latest"].contains how then
    throw Err.assertionError
  -- left_records = self: this merge does not clone its left input.
  let mergeLeft := ["left", "outer", "left_use_latest"].contains how
  let latest := ["left_use_latest"].contains how
  let mergeRight := ["right", "outer"].contains how
  let leftR ← Records.appendColumnE self ⟨"_tmp_side"⟩
    (List.replicate self.data.length 0)
  let rightR ← Records.appendColumnE right ⟨"_tmp_side"⟩
    (List.replicate right.data.length 1)
  let concatColumns := uniqueList (leftR.columns ++ rightR.columns ++
    ["_tmp_has_valid_join_key", "_tmp_stamp", "_tmp_has_merge_stamp"])
  let concat₀ : Records := { columns := concatColumns, data := [] }
  let concat₁ ← concat₀.concat leftR
  let concat₂ ← concat₁.concat rightR
  let nl := leftR.data.length
  -- Tagging loop (lines 652-665); the rows are shared with leftR/rightR.
  let store := concat₂.data.map (fun r =>
    let jks := if r.get? "_tmp_side" = some 0 then joinLeftKeys else joinRightKeys
    let stampKey := if r.get? "_tmp_side" = some 0 then leftStampKey
      else rightStampKey
    let hv := jks.length == 0 || jks.all (fun k => (r.get? k).isSome)
    let r := r.add "_tmp_has_valid_join_key" (if hv then 1 else 0)
    let r := r.add "_tmp_has_merge_stamp"
      (if (r.get? stampKey).isSome then 1 else 0)
    r.add "_tmp_stamp" (r.getWithDefault stampKey maxsize))
  -- concat_records.sort([column_merge_stamp, column_side]) (line 681).
  let order := (List.range store.length).insertionSort (fun i j =>
    lexLe (pySortKey ["_tmp_stamp", "_tmp_side"] true (store.getD i []))
      (pySortKey ["_tmp_stamp", "_tmp_side"] true (store.getD j [])) = true)
  let p1 := seqPass1 joinLeftKeys joinRightKeys
    (order.map (fun i => (i, store.getD i [])))
  let em := order.foldl (seqEmitStep latest mergeLeft mergeRight store p1.subs)
    ⟨[], []⟩
  let tempCols := ["_tmp_side", "_tmp_stamp", "_tmp_has_merge_stamp",
    "_tmp_has_valid_join_key", "_tmp_sub_records"]
  -- merged_records.columns.drop(temporay_columns) (line 765): the merged
  -- collection holds all five temporaries, so the observer strips them from
  -- every emitted row, reaching shared objects through the references.
  let stepA := em.merged.foldl
    (fun (acc : List Record × List (Sum Nat Record)) e =>
      match e with
      | Sum.inl i => (storeModify acc.1 i (Record.dropColumns tempCols),
          acc.2 ++ [Sum.inl i])
      | Sum.inr r => (acc.1, acc.2 ++ [Sum.inr (r.dropColumns tempCols)]))
    (store, [])
  -- left_records.columns.drop / right_records.columns.drop (lines 766-767):
  -- of the temporaries only `_tmp_side` is in the input collections.
  let leftKept := (Records.columnsDrop leftR.columns tempCols).1
  let leftDropped := (Records.columnsDrop leftR.columns tempCols).2
  let store₄ := (List.range nl).foldl
    (fun s i => storeModify s i (Record.dropColumns leftDropped)) stepA.1
  let rightKept := (Records.columnsDrop rightR.columns tempCols).1
  let rightDropped := (Records.columnsDrop rightR.columns tempCols).2
  let storeF := (List.range rightR.data.length).foldl
    (fun s k => storeModify s (nl + k) (Record.dropColumns rightDropped)) store₄
  -- merged_records.columns.reindex (line 769).
  let mergedData := stepA.2.map (fun e =>
    match e with
    | Sum.inl i => storeF.getD i []
    | Sum.inr r => r)
  pure { merged := { columns := columns, data := mergedData },
         leftFinal := { columns := leftKept, data := storeF.take nl },
         rightFinal := { columns := rightKept, data := storeF.drop nl } }

/-- The observable content of one row with respect to a column list: the
optional cell value per column.  Two rows with equal views are the same
sparse mapping on those columns (dict key order is not observable). -/
def tableRow (cols : List String) (r : Record) : List (Option Int) :=
  cols.map (fun c => r.get? c)

/-- The observable content of a whole table. -/
def tableView (R : Records) : List (List (Option Int)) :=
  R.data.map (tableRow R.columns)

/-- The concatenation of all groups of a groupby result, in map order (a
statement helper: group order is irrelevant up to permutation). -/
def joinGroups (gs : List (List Int × Records)) : List Record :=
  gs.foldr (fun g acc => g.2.data ++ acc) []

/-- Left table of the specification's keyed-merge scenarios 1-2: columns
[a, b], rows [{a:1, b:10}, {a:2, b:20}]. -/
def scenarioLeft : Records :=
  { columns := ["a", "b"], data := [[("a", 1), ("b", 10)], [("a", 2), ("b", 20)]] }

/-- Right table of the specification's keyed-merge scenarios 1-2: columns
[a, c], rows [{a:2, c:200}, {a:3, c:300}]. -/
def scenarioRight : Records :=
  { columns := ["a", "c"], data := [[("a", 2), ("c", 200)], [("a", 3), ("c", 300)]] }

/-- Keyed-merge input whose tables share the non-key column "x" with
different values on the matching rows. -/
def c1Left : Records :=
  { columns := ["a", "x"], data := [[("a", 2), ("x", 1)]] }

/-- Right side of the shared-column keyed-merge input. -/
def c1Right : Records :=
  { columns := ["a", "x"], data := [[("a", 2), ("x", 2)]] }

/-- Sequential-merge left input: two left rows (stamps 1 and 2) with the
same join key. -/
def c2Left : Records :=
  { columns := ["ls", "k"], data := [[("ls", 1), ("k", 7)], [("ls", 2), ("k", 7)]] }

/-- Sequential-merge right input: two right rows (stamps 3 and 4) with the
same join key. -/
def c2Right : Records :=
  { columns := ["rs", "k"], data := [[("rs", 3), ("k", 7)], [("rs", 4), ("k", 7)]] }

/-- A table with two rows tied on the sort key "k" but carrying different
payloads in "x". -/
def c3R : Records :=
  { columns := ["k", "x"], data := [[("k", 1), ("x", 1)], [("k", 1), ("x", 2)]] }

/-- A three-column table on which `bind_drop_as_delay` is not idempotent:
the second application copies a "c" value into the row {a:5} that the first
application left without one. -/
def c7R : Records :=
  { columns := ["a", "b", "c"],
    data := [[("a", 6), ("b", 3)], [("a", 5)], [("a", 5), ("b", 4), ("c", 9)]] }

open scoped List

/-
Helper lemmas about the Record (dict) operations.
-/

/-- Lookup after dict assignment: the assigned key reads the new value,
every other key is untouched. -/
theorem Record.get?_add (r : Record) (k k' : String) (v : Int) :
    (r.add k v).get? k' = if k = k' then some v else r.get? k' := by
  induction r with
  | nil => simp only [Record.add, Record.get?]
  | cons hd tl ih =>
    obtain ⟨a, b⟩ := hd
    simp only [Record.add]
    by_cases h1 : a = k
    · rw [if_pos h1]
      subst h1
      by_cases h2 : a = k' <;> simp [Record.get?, h2]
    · rw [if_neg h1]
      by_cases h2 : a = k'
      · subst h2
        have h3 : ¬ k = a := fun hh => h1 hh.symm
        simp [Record.get?, h3]
      · simp [Record.get?, h2, ih]

/-- A key outside the dict's key set reads `none`. -/
theorem Record.get?_eq_none_of_not_mem (r : Record) (k : String)
    (h : ¬ k ∈ r.keys) : r.get? k = none := by
  induction r with
  | nil => rfl
  | cons hd tl ih =>
    obtain ⟨a, b⟩ := hd
    simp only [Record.keys, List.map_cons, List.mem_cons] at h
    push_neg at h
    have : ¬ a = k := fun hak => h.1 hak.symm
    simpa [Record.get?, this] using ih (by
      intro hk
      exact h.2 (by simpa [Record.keys] using hk))

/-- Lookup through `Record.merge` (`self._data.update(other.data)`): a key
present in `other` reads `other`'s value, every other key reads `self`'s. -/
theorem Record.get?_merge (self other : Record) (h : other.keys.Nodup)
    (k : String) :
    (self.merge other).get? k =
      if (other.get? k).isSome then other.get? k else self.get? k := by
  induction other generalizing self with
  | nil => simp [Record.merge, Record.get?]
  | cons hd tl ih =>
    obtain ⟨a, b⟩ := hd
    simp only [Record.keys, List.map_cons, List.nodup_cons] at h
    have hmerge : Record.merge self ((a, b) :: tl) =
        Record.merge (self.add a b) tl := rfl
    rw [hmerge, ih (self.add a b) h.2]
    by_cases hak : a = k
    · subst hak
      have htl : Record.get? a tl = none :=
        Record.get?_eq_none_of_not_mem tl a (by simpa [Record.keys] using h.1)
      simp [htl, Record.get?, Record.get?_add]
    · simp [Record.get?, hak, Record.get?_add]

/-
Claim theorems.
-/

/-- Claim C4 (confirmed): on the specification's scenario inputs, the keyed
merge with `how = outer` on key a = a returns columns [a, b, c] and exactly
the rows {a:2, b:20, c:200}, {a:1, b:10}, {a:3, c:300}, in that order
(paired first, then left-unmatched, then right-unmatched).  The first
conjunct pins the full returned structure (dict key order is the
construction order and is not observable); the second states the rows as
sparse mappings over the output columns. -/
theorem C4_keyed_outer_scenario :
    (Records.merge scenarioLeft scenarioRight ["a"] ["a"] "outer").map
        (fun res => res.merged) =
      .ok { columns := ["a", "b", "c"],
            data := [[("a", 2), ("c", 200), ("b", 20)],
                     [("a", 1), ("b", 10)],
                     [("a", 3), ("c", 300)]] } ∧
    (Records.merge scenarioLeft scenarioRight ["a"] ["a"] "outer").map
        (fun res => tableView res.merged) =
      .ok [[some 2, some 20, some 200],
           [some 1, some 10, none],
           [some 3, none, some 300]] := by
  exact ⟨by decide, by decide⟩

/-- Claim C1 counterexample: with tables sharing the non-key column "x"
(left row {a:2, x:1}, right row {a:2, x:2}), the paired output row carries
the LEFT row's value x = 1, not the right row's x = 2 as the claim states:
the source builds `deepcopy(right)` and overlays the left row onto it
(`merged_record.merge(left_record)`), so the left side wins on shared
names. -/
theorem C1_counterexample :
    (Records.merge c1Left c1Right ["a"] ["a"] "inner").map
        (fun res => res.merged.data.map (Record.get? "x")) = .ok [some 1] ∧
    (Records.merge c1Left c1Right ["a"] ["a"] "inner").map
        (fun res => res.merged.data.map (Record.get? "x")) ≠ .ok [some 2] := by
  exact ⟨by decide, by decide⟩

/-- Claim C1 (amended): every paired row emitted by the keyed merge is built
by overlaying the LEFT row's columns onto a deep copy of the RIGHT row: for
a name present on both rows the merged row carries the left row's value,
and the union of both rows' entries everywhere else. -/
theorem C1_amended_pair_row_overlay (rRow lRow : Record)
    (h : lRow.keys.Nodup) (k : String) :
    (mergedPairRow rRow lRow).get? k =
      if (lRow.get? k).isSome then lRow.get? k else rRow.get? k :=
  Record.get?_merge rRow lRow h k

/-- Witness for `C1_amended_pair_row_overlay` at the shared-column input:
the merged pair row reads the left row's value on the shared name "x". -/
theorem C1_amended_pair_row_overlay_witness :
    (mergedPairRow [("a", 2), ("x", 2)] [("a", 2), ("x", 1)]).get? "x" =
      if (Record.get? "x" [("a", 2), ("x", 1)]).isSome then
        Record.get? "x" [("a", 2), ("x", 1)]
      else Record.get? "x" [("a", 2), ("x", 2)] :=
  C1_amended_pair_row_overlay [("a", 2), ("x", 2)] [("a", 2), ("x", 1)]
    (by decide) "x"

/-- Claim C2 counterexample: left rows {ls:1, k:7}, {ls:2, k:7} and right
rows {rs:3, k:7}, {rs:4, k:7}, `how = inner`.  The claim's rule ("the
latest left ... that has not yet been bound") would bind the right row at
stamp 4 to the still-unbound left at stamp 1 and make that left bind
exactly once; the code instead attaches every right to the latest matching
left regardless of binding (the right at stamp 4 is consumed without
emission and the left at stamp 1 never binds), producing exactly one output
row {ls:2, k:7, rs:3}. -/
theorem C2_counterexample :
    (Records.merge_sequencial c2Left c2Right "ls" "rs" ["k"] ["k"] "inner").map
        (fun res => tableView res.merged) = .ok [[some 2, some 7, some 3]] ∧
    (Records.merge_sequencial c2Left c2Right "ls" "rs" ["k"] ["k"] "inner").map
        (fun res => res.merged.data.filter (fun r => r.get? "ls" == some 1)) =
      .ok [] := by
  exact ⟨by decide, by decide⟩

/-- Claim C3 counterexample: two rows tied on the sort key (k = 1 on both)
with no missing k values.  Sorting ascending then descending leaves them in
the same order — the stable sort keeps ties in place in both directions —
whereas the claim requires the order of these rows to be reversed. -/
theorem C3_counterexample :
    Records.sort c3R ["k"] true = .ok c3R ∧
    ((Records.sort c3R ["k"] true).bind
      (fun R₁ => Records.sort R₁ ["k"] false)) = .ok c3R ∧
    c3R.data.map (tableRow c3R.columns) ≠
      c3R.data.reverse.map (tableRow c3R.columns) := by
  exact ⟨by decide, by decide, by decide⟩

/-- Claim C5 (the code violates it): after the keyed merge on the scenario
inputs with `how = inner`, the right input's rows still carry the
`_tmp_has_valid_join_key` and `_tmp_join_key_0` entries written into the
shared row objects during the merge: those keys were added row-locally and
never registered in the right input's column collection, so the final
`right_records.columns.drop(...)` cleanup does not reach them.  The input's
row data is therefore changed by the call, contradicting the claim. -/
theorem C5_keyed_merge_mutates_right_input :
    (Records.merge scenarioLeft scenarioRight ["a"] ["a"] "inner").map
        (fun res => res.rightFinal) =
      .ok { columns := ["a", "c"],
            data := [[("a", 2), ("c", 200),
                      ("_tmp_has_valid_join_key", 1), ("_tmp_join_key_0", 2)],
                     [("a", 3), ("c", 300),
                      ("_tmp_has_valid_join_key", 1), ("_tmp_join_key_0", 3)]] } ∧
    (Records.merge scenarioLeft scenarioRight ["a"] ["a"] "inner").map
        (fun res => res.rightFinal) ≠ .ok scenarioRight := by
  exact ⟨by decide, by decide⟩

/-- Claim C7 counterexample: on `c7R` the first `bind_drop_as_delay` yields
rows {a:5, b:3}, {a:5, b:4, c:9}, {a:6, b:3}; the second application sees
{a:5, b:4, c:9} before {a:5, b:3} in its descending sweep (the filled b = 3
changed the sort position) and copies c = 9 into {a:5, b:3}.  The two
states differ, so the operation is not idempotent. -/
theorem C7_counterexample :
    Except.map tableView (Records.bindDropAsDelay c7R) =
      .ok [[some 5, some 3, none], [some 5, some 4, some 9],
           [some 6, some 3, none]] ∧
    Except.map tableView
        ((Records.bindDropAsDelay c7R).bind Records.bindDropAsDelay) =
      .ok [[some 5, some 3, some 9], [some 5, some 4, some 9],
           [some 6, some 3, none]] ∧
    Except.map tableView
        ((Records.bindDropAsDelay c7R).bind Records.bindDropAsDelay) ≠
      Except.map tableView (Records.bindDropAsDelay c7R) := by
  exact ⟨by decide, by decide, by decide⟩

/-- Claim C8 counterexample: appending a column whose name already exists
("a") with a matching value count does not "add the column and write the
values" as the claim's otherwise-branch states — the column-collection
extension rejects the repeated name (DuplicateColumn, section 7) and the
table is left untouched. -/
theorem C8_counterexample :
    Records.appendColumn { columns := ["a"], data := [[("a", 1)]] } ⟨"a"⟩ [5] =
      ({ columns := ["a"], data := [[("a", 1)]] }, some Err.duplicateColumn) ∧
    (Records.appendColumn { columns := ["a"], data := [[("a", 1)]] }
      ⟨"a"⟩ [5]).2 ≠ none := by
  exact ⟨by decide, by decide⟩

/-- Claim C9 (confirmed): `Records.sort` with an empty key list always
fails on the `assert len(keys) > 0` statement, and with any non-empty key
list the assertion is unreachable and the sort completes, returning the
stably sorted table. -/
theorem C9_sort_key_assertion (R : Records) (keys : List String)
    (ascending : Bool) :
    Records.sort R [] ascending = .error Err.assertionError ∧
    (keys ≠ [] → Records.sort R keys ascending =
      .ok { R with data := pyStableSort keys ascending R.data }) := by
  refine ⟨rfl, fun h => ?_⟩
  simp [Records.sort, h]

/-- Witness for `C9_sort_key_assertion`: a concrete non-empty key list on a
concrete table sorts successfully. -/
theorem C9_sort_key_assertion_witness :
    Records.sort c3R ["k"] true =
      .ok { c3R with data := pyStableSort ["k"] true c3R.data } :=
  (C9_sort_key_assertion c3R ["k"] true).2 (by decide)

/-- Claim C10 (confirmed): `get_row_series` fails (with the OutOfRange
kind) only when the index is at least the row count; for every index `i`
with `-len ≤ i < 0` it succeeds and returns the row at position `len + i`,
counted from the end, by Python's negative indexing. -/
theorem C10_get_row_series_negative_index (R : Records) (i : Int) :
    ((R.data.length : Int) ≤ i →
      Records.getRowSeries R i = .error Err.outOfRange) ∧
    (-(R.data.length : Int) ≤ i → i < 0 →
      ∃ r, Records.getRowSeries R i = .ok r ∧
        R.data.get? (i + (R.data.length : Int)).toNat = some r) := by
  constructor
  · intro h
    simp [Records.getRowSeries, h]
  · intro h₁ h₂
    have hlt : ¬ (R.data.length : Int) ≤ i := by omega
    have hge : (0 : Int) ≤ i + R.data.length := by omega
    have hn : (i + (R.data.length : Int)).toNat < R.data.length := by omega
    refine ⟨R.data.get ⟨(i + (R.data.length : Int)).toNat, hn⟩, ?_,
      List.get?_eq_get hn⟩
    simp only [Records.getRowSeries, Records.pyGetElem]
    rw [if_neg hlt, if_neg (show ¬ (0 : Int) ≤ i by omega), if_pos hge,
      List.get?_eq_get hn]

/-- Witness for `C10_get_row_series_negative_index`: index -1 on a
two-row table returns the last row. -/
theorem C10_get_row_series_negative_index_witness :
    ∃ r, Records.getRowSeries c3R (-1) = .ok r ∧
      c3R.data.get? ((-1) + (c3R.data.length : Int)).toNat = some r :=
  (C10_get_row_series_negative_index c3R (-1)).2 (by decide) (by decide)

/-- Position access through `zipWith` at an in-range index. -/
theorem zipWith_getD (f : Record → Int → Record) :
    ∀ (l₁ : List Record) (l₂ : List Int) (i : Nat),
      i < l₁.length → i < l₂.length →
      (List.zipWith f l₁ l₂).getD i [] = f (l₁.getD i []) (l₂.getD i 0)
  | [], _, _, h, _ => absurd h (by simp)
  | _ :: _, [], _, _, h => absurd h (by simp)
  | a :: l₁, b :: l₂, 0, _, _ => rfl
  | a :: l₁, b :: l₂, i + 1, h₁, h₂ => by
    simpa using zipWith_getD f l₁ l₂ i (by simpa using h₁) (by simpa using h₂)

/-- Claim C8 (amended): `append_column` fails with LengthMismatch exactly
when the value count differs from the row count, leaving the table
untouched; with matching counts it fails with DuplicateColumn (untouched)
when the name already names a column, and only for a fresh name does it
add the column and write the i-th value into the i-th row, leaving every
pre-existing cell of every row unchanged. -/
theorem C8_amended_append_column (R : Records) (cv : ColumnValue)
    (values : List Int) :
    (values.length ≠ R.data.length →
      Records.appendColumn R cv values = (R, some Err.lengthMismatch)) ∧
    (values.length = R.data.length → R.columns.contains cv.name = true →
      Records.appendColumn R cv values = (R, some Err.duplicateColumn)) ∧
    (values.length = R.data.length → R.columns.contains cv.name = false →
      (Records.appendColumn R cv values).2 = none ∧
      (Records.appendColumn R cv values).1.columns = R.columns ++ [cv.name] ∧
      (Records.appendColumn R cv values).1.data.length = R.data.length ∧
      ∀ i, i < R.data.length →
        ((Records.appendColumn R cv values).1.data.getD i []).get? cv.name =
          some (values.getD i 0) ∧
        ∀ c, c ≠ cv.name →
          ((Records.appendColumn R cv values).1.data.getD i []).get? c =
            (R.data.getD i []).get? c) := by
  refine ⟨fun h => ?_, fun h hdup => ?_, fun h hfresh => ?_⟩
  · simp [Records.appendColumn, h]
  · have hmem : cv.name ∈ R.columns := by simpa using hdup
    simp [Records.appendColumn, h, hmem]
  · have hmem : cv.name ∉ R.columns := by simpa using hfresh
    have happ : Records.appendColumn R cv values =
        ({ columns := R.columns ++ [cv.name],
           data := R.data.zipWith (fun r v => r.add cv.name v) values }, none) := by
      simp [Records.appendColumn, h, hmem]
    refine ⟨by rw [happ], by rw [happ], ?_, ?_⟩
    · rw [happ]
      simp [h]
    · intro i hi
      have hz : (Records.appendColumn R cv values).1.data.getD i [] =
          (R.data.getD i []).add cv.name (values.getD i 0) := by
        rw [happ]
        exact zipWith_getD _ R.data values i hi (by omega)
      constructor
      · rw [hz, Record.get?_add]
        simp
      · intro c hc
        rw [hz, Record.get?_add]
        exact if_neg (fun hcc : cv.name = c => hc hcc.symm)

/-- Witness for `C8_amended_append_column`: appending the fresh column "b"
with value 5 to a one-row table writes 5 into the row. -/
theorem C8_amended_append_column_witness :
    ((Records.appendColumn { columns := ["a"], data := [[("a", 1)]] }
        ⟨"b"⟩ [5]).1.data.getD 0 []).get? "b" = some 5 :=
  (((C8_amended_append_column { columns := ["a"], data := [[("a", 1)]] }
      ⟨"b"⟩ [5]).2.2 (by decide) (by decide)).2.2.2 0 (by decide)).1

/-- Group lookup after one `groupUpdate` step: the updated tuple's group
gains the row at its end, every other tuple is untouched. -/
theorem aget_groupUpdate (cols : List String) (k0 k : List Int) (r : Record)
    (gs : List (List Int × Records)) :
    Records.aget k (Records.groupUpdate cols k0 r gs) =
      if k0 = k then
        some (match Records.aget k gs with
          | some g => { g with data := g.data ++ [r] }
          | none => { columns := cols, data := [r] })
      else Records.aget k gs := by
  induction gs with
  | nil =>
    by_cases h : k0 = k <;> simp [Records.groupUpdate, Records.aget, h]
  | cons hd tl ih =>
    obtain ⟨k', g⟩ := hd
    by_cases h1 : k' = k0
    · subst h1
      by_cases h2 : k' = k
      · subst h2
        simp [Records.groupUpdate, Records.aget]
      · simp [Records.groupUpdate, Records.aget, h2,
          fun h : k' = k => h2 h]
    · by_cases h2 : k' = k
      · subst h2
        have h3 : ¬ k0 = k' := fun h => h1 h.symm
        simp [Records.groupUpdate, Records.aget, h1, h3]
      · simp [Records.groupUpdate, Records.aget, h1, h2, ih]

/-- The multiset effect of one `groupUpdate` step: exactly the new row is
added. -/
theorem joinGroups_groupUpdate (cols : List String) (k0 : List Int)
    (r : Record) (gs : List (List Int × Records)) :
    joinGroups (Records.groupUpdate cols k0 r gs) ~ r :: joinGroups gs := by
  induction gs with
  | nil => simp [Records.groupUpdate, joinGroups]
  | cons hd tl ih =>
    obtain ⟨k', g⟩ := hd
    by_cases h : k' = k0
    · simp only [Records.groupUpdate, if_pos h, joinGroups, List.foldr_cons]
      calc (g.data ++ [r]) ++ joinGroups tl
          = g.data ++ (r :: joinGroups tl) := by simp
        _ ~ r :: (g.data ++ joinGroups tl) := List.perm_middle
    · simp only [Records.groupUpdate, if_neg h, joinGroups, List.foldr_cons]
      calc g.data ++ joinGroups (Records.groupUpdate cols k0 r tl)
          ~ g.data ++ (r :: joinGroups tl) := List.Perm.append_left g.data ih
        _ ~ r :: (g.data ++ joinGroups tl) := List.perm_middle

/-- Characterization of the groupby row loop: under a duplicate-free column
list and rows respecting the column invariant, the loop succeeds, each
tuple's group accumulates exactly the matching rows in order, and the
groups' contents extend the accumulator by exactly the processed rows. -/
theorem groupbyGo_char (cols keys : List String) (hc : cols.Nodup) :
    ∀ (rows : List Record) (gs : List (List Int × Records)),
      (∀ r ∈ rows, r.keys.all (fun c => cols.contains c) = true) →
      ∃ gs', Records.groupbyGo cols keys rows gs = .ok gs' ∧
        (∀ k, Records.aget k gs' =
          match Records.aget k gs with
          | some g => some (Records.mk g.columns
              (g.data ++ rows.filter (fun r => decide (Records.keyTuple keys r = k))))
          | none =>
            if rows.filter (fun r => decide (Records.keyTuple keys r = k)) = []
            then none
            else some (Records.mk cols
              (rows.filter (fun r => decide (Records.keyTuple keys r = k))))) ∧
        joinGroups gs' ~ joinGroups gs ++ rows := by
  intro rows
  induction rows with
  | nil =>
    intro gs hval
    refine ⟨gs, rfl, fun k => ?_, by simp⟩
    cases h : Records.aget k gs <;> simp [h]
  | cons r rest ih =>
    intro gs hval
    have hr : r.keys.all (fun c => cols.contains c) = true :=
      hval r (List.mem_cons_self r rest)
    have hrest : ∀ x ∈ rest, x.keys.all (fun c => cols.contains c) = true :=
      fun x hx => hval x (List.mem_cons_of_mem r hx)
    have hstep : Records.groupbyGo cols keys (r :: rest) gs =
        Records.groupbyGo cols keys rest
          (Records.groupUpdate cols (Records.keyTuple keys r) r gs) := by
      have hv : Records.validate [] cols = none := by
        simp [Records.validate, hc]
      simp only [Records.groupbyGo, hv, hr]
      cases hs : (Records.aget (Records.keyTuple keys r) gs).isSome <;> simp [hs, hr]
    obtain ⟨gs', hrun, haget, hjoin⟩ :=
      ih (Records.groupUpdate cols (Records.keyTuple keys r) r gs) hrest
    refine ⟨gs', by rw [hstep]; exact hrun, fun k => ?_, ?_⟩
    · rw [haget k, aget_groupUpdate]
      by_cases hk : Records.keyTuple keys r = k
      · rw [if_pos hk]
        have hfil : (r :: rest).filter
            (fun x => decide (Records.keyTuple keys x = k)) =
            r :: rest.filter (fun x => decide (Records.keyTuple keys x = k)) := by
          simp [List.filter_cons, hk]
        cases hg : Records.aget k gs <;> simp [hg, hfil]
      · rw [if_neg hk]
        have hfil : (r :: rest).filter
            (fun x => decide (Records.keyTuple keys x = k)) =
            rest.filter (fun x => decide (Records.keyTuple keys x = k)) := by
          simp [List.filter_cons, hk]
        rw [hfil]
    · calc joinGroups gs'
          ~ joinGroups (Records.groupUpdate cols (Records.keyTuple keys r) r gs)
            ++ rest := hjoin
        _ ~ (r :: joinGroups gs) ++ rest :=
            List.Perm.append_right rest
              (joinGroups_groupUpdate cols (Records.keyTuple keys r) r gs)
        _ = r :: (joinGroups gs ++ rest) := rfl
        _ ~ joinGroups gs ++ (r :: rest) := List.perm_middle.symm

/-- Claim C6 (confirmed): `groupby(K)` keys each row by the tuple of its K
values with 2^64 - 1 substituted for missing keys; every tuple's group is a
Records with the original column set containing exactly the matching rows
in their original relative order, and the groups partition the rows (their
concatenation is a permutation, i.e. the same multiset, as R's data). -/
theorem C6_groupby_partition (R : Records) (keys : List String)
    (hc : R.columns.Nodup)
    (hval : ∀ r ∈ R.data, r.keys.all (fun c => R.columns.contains c) = true) :
    ∃ gs, R.groupby keys = .ok gs ∧
      (∀ k : List Int, Records.aget k gs =
        (if R.data.filter (fun r => decide (Records.keyTuple keys r = k)) = []
         then none
         else some (Records.mk R.columns
           (R.data.filter (fun r => decide (Records.keyTuple keys r = k)))))) ∧
      joinGroups gs ~ R.data := by
  obtain ⟨gs, hrun, haget, hjoin⟩ :=
    groupbyGo_char R.columns keys hc R.data [] hval
  refine ⟨gs, hrun, fun k => ?_, by simpa using hjoin⟩
  simpa [Records.aget] using haget k

/-- Witness for `C6_groupby_partition` at the specification's scenario 6:
rows {a:1, b:2}, {a:1}, {b:2} grouped by [a]. -/
theorem C6_groupby_partition_witness :
    ∃ gs, Records.groupby
        { columns := ["a", "b"],
          data := [[("a", 1), ("b", 2)], [("a", 1)], [("b", 2)]] } ["a"] =
        .ok gs ∧
      (∀ k : List Int, Records.aget k gs =
        (if List.filter (fun r => decide (Records.keyTuple ["a"] r = k))
              [[("a", 1), ("b", 2)], [("a", 1)], [("b", 2)]] = []
         then none
         else some (Records.mk ["a", "b"]
           (List.filter (fun r => decide (Records.keyTuple ["a"] r = k))
             [[("a", 1), ("b", 2)], [("a", 1)], [("b", 2)]])))) ∧
      joinGroups gs ~ [[("a", 1), ("b", 2)], [("a", 1)], [("b", 2)]] :=
  C6_groupby_partition
    { columns := ["a", "b"],
      data := [[("a", 1), ("b", 2)], [("a", 1)], [("b", 2)]] }
    ["a"] (by decide) (by decide)

/-- Totality of the tuple order. -/
theorem lexLe_total : ∀ a b : List Int, lexLe a b = true ∨ lexLe b a = true
  | [], _ => Or.inl rfl
  | _ :: _, [] => Or.inr rfl
  | a :: as, b :: bs => by
    by_cases h1 : a < b
    · exact Or.inl (by simp [lexLe, h1])
    · by_cases h2 : b < a
      · exact Or.inr (by simp [lexLe, h2])
      · rcases lexLe_total as bs with h | h
        · exact Or.inl (by simp [lexLe, h1, h2, h])
        · exact Or.inr (by simp [lexLe, h1, h2, h])

/-- Transitivity of the tuple order. -/
theorem lexLe_trans : ∀ {a b c : List Int},
    lexLe a b = true → lexLe b c = true → lexLe a c = true
  | [], _, _, _, _ => rfl
  | _ :: _, [], _, h, _ => by simp [lexLe] at h
  | _ :: _, _ :: _, [], _, h => by simp [lexLe] at h
  | a :: as, b :: bs, c :: cs, h1, h2 => by
    by_cases hab : a < b
    · by_cases hbc : b < c
      · simp [lexLe, lt_trans hab hbc]
      · by_cases hcb : c < b
        · simp [lexLe, hbc, hcb] at h2
        · have hbc' : b = c := le_antisymm (not_lt.mp hcb) (not_lt.mp hbc)
          subst hbc'
          simp [lexLe, hab]
    · by_cases hba : b < a
      · simp [lexLe, hab, hba] at h1
      · have hab' : a = b := le_antisymm (not_lt.mp hba) (not_lt.mp hab)
        subst hab'
        simp only [lexLe, lt_irrefl, if_false] at h1
        by_cases hac : a < c
        · simp [lexLe, hac]
        · by_cases hca : c < a
          · simp [lexLe, hac, hca] at h2
          · simp only [lexLe, hac, hca, if_false] at h2 ⊢
            exact lexLe_trans h1 h2

/-- Antisymmetry of the tuple order. -/
theorem lexLe_antisymm : ∀ {a b : List Int},
    lexLe a b = true → lexLe b a = true → a = b
  | [], [], _, _ => rfl
  | [], _ :: _, _, h => by simp [lexLe] at h
  | _ :: _, [], h, _ => by simp [lexLe] at h
  | a :: as, b :: bs, h1, h2 => by
    by_cases hab : a < b
    · simp [lexLe, hab, asymm hab] at h2
    · by_cases hba : b < a
      · simp [lexLe, hab, hba] at h1
      · have hab' : a = b := le_antisymm (not_lt.mp hba) (not_lt.mp hab)
        subst hab'
        simp only [lexLe, lt_irrefl, if_false] at h1 h2
        rw [lexLe_antisymm h1 h2]

/-- Componentwise negation reverses the tuple order on equal-length
tuples. -/
theorem lexLe_neg_map : ∀ {a b : List Int}, a.length = b.length →
    lexLe (a.map (fun x => -x)) (b.map (fun x => -x)) = lexLe b a
  | [], [], _ => rfl
  | [], _ :: _, h => by simp at h
  | _ :: _, [], h => by simp at h
  | a :: as, b :: bs, h => by
    have hlen : as.length = bs.length := by simpa using h
    simp only [List.map_cons, lexLe]
    by_cases h1 : b < a
    · simp [h1, neg_lt_neg h1]
    · by_cases h2 : a < b
      · have hn1 : (-b : Int) < -a := neg_lt_neg h2
        have hn2 : ¬ (-a : Int) < -b := by omega
        simp [h1, h2, hn1, hn2]
      · have hn1 : ¬ (-a : Int) < -b := by omega
        have hn2 : ¬ (-b : Int) < -a := by omega
        simp [h1, h2, hn1, hn2, lexLe_neg_map hlen]

/-- The stable sort's output is sorted by the weak key order. -/
theorem pyStableSort_sorted (keys : List String) (asc : Bool)
    (data : List Record) :
    List.Sorted
      (fun a b => lexLe (pySortKey keys asc a) (pySortKey keys asc b) = true)
      (pyStableSort keys asc data) := by
  haveI : IsTotal Record
      (fun a b => lexLe (pySortKey keys asc a) (pySortKey keys asc b) = true) :=
    ⟨fun a b => lexLe_total _ _⟩
  haveI : IsTrans Record
      (fun a b => lexLe (pySortKey keys asc a) (pySortKey keys asc b) = true) :=
    ⟨fun _ _ _ => lexLe_trans⟩
  exact List.sorted_insertionSort _ data

/-- The stable sort permutes its input. -/
theorem pyStableSort_perm (keys : List String) (asc : Bool)
    (data : List Record) : pyStableSort keys asc data ~ data :=
  List.perm_insertionSort _ data

/-- The descending sort key is the componentwise negation of the ascending
one. -/
theorem pySortKey_false_eq (keys : List String) (r : Record) :
    pySortKey keys false r = (pySortKey keys true r).map (fun x => -x) := by
  simp [pySortKey, List.map_map]

/-- The descending weak order is the flip of the ascending one. -/
theorem descRel_iff (keys : List String) (a b : Record) :
    (lexLe (pySortKey keys false a) (pySortKey keys false b) = true) ↔
      (lexLe (pySortKey keys true b) (pySortKey keys true a) = true) := by
  rw [pySortKey_false_eq, pySortKey_false_eq, lexLe_neg_map (by simp [pySortKey])]

/-- Claim C3 (amended): sorting ascending and then descending by the same
non-empty key list reverses the order of the rows that have no missing key
values, provided those rows have pairwise distinct key tuples.  (With tied
key tuples the stable sort keeps the tied rows in their ascending order in
both directions, so their order is not reversed; see the
counterexample.) -/
theorem C3_amended_sort_reversal (R R₁ R₂ : Records) (keys : List String)
    (h₁ : Records.sort R keys true = .ok R₁)
    (h₂ : Records.sort R₁ keys false = .ok R₂)
    (hdist : (R₁.data.filter
        (fun r => keys.all (fun k => (r.get? k).isSome))).Pairwise
      (fun a b => pySortKey keys true a ≠ pySortKey keys true b)) :
    R₂.data.filter (fun r => keys.all (fun k => (r.get? k).isSome)) =
      (R₁.data.filter (fun r => keys.all (fun k => (r.get? k).isSome))).reverse := by
  have hk : ¬ keys = [] := by
    intro hk
    rw [hk] at h₁
    simp [Records.sort] at h₁
  have e₁ : R₁.data = pyStableSort keys true R.data := by
    simp [Records.sort, hk] at h₁
    rw [← h₁]
  have e₂ : R₂.data = pyStableSort keys false R₁.data := by
    simp [Records.sort, hk] at h₂
    rw [← h₂]
  set p : Record → Bool := fun r => keys.all (fun k => (r.get? k).isSome) with hp
  set G : Record → Record → Prop := fun a b =>
    (lexLe (pySortKey keys true b) (pySortKey keys true a) = true) ∧
      pySortKey keys true a ≠ pySortKey keys true b with hG
  -- the two filtered lists are permutations of each other
  have hperm : R₂.data.filter p ~ R₁.data.filter p := by
    rw [e₂]
    exact (pyStableSort_perm keys false R₁.data).filter p
  -- distinctness transfers to the descending side
  have hdist₂ : (R₂.data.filter p).Pairwise (fun a b =>
      pySortKey keys true a ≠ pySortKey keys true b) :=
    (List.Perm.pairwise_iff (fun h e => h e.symm) hperm).mpr hdist
  -- the descending result is G-sorted
  have hsorted₂ : (R₂.data.filter p).Pairwise G := by
    have hweak : (R₂.data.filter p).Pairwise (fun a b =>
        lexLe (pySortKey keys true b) (pySortKey keys true a) = true) := by
      have := (pyStableSort_sorted keys false R₁.data).filter p
      rw [← e₂] at this
      exact this.imp (fun h => (descRel_iff keys _ _).mp h)
    exact hweak.and hdist₂
  -- the reversed ascending result is G-sorted
  have hsorted₁ : ((R₁.data.filter p).reverse).Pairwise G := by
    rw [List.pairwise_reverse]
    have hweak : (R₁.data.filter p).Pairwise (fun a b =>
        lexLe (pySortKey keys true a) (pySortKey keys true b) = true) := by
      have := (pyStableSort_sorted keys true R.data).filter p
      rw [← e₁] at this
      exact this
    exact hweak.and (hdist.imp (fun h e => h e.symm))
  have hperm' : R₂.data.filter p ~ (R₁.data.filter p).reverse :=
    hperm.trans (List.reverse_perm (R₁.data.filter p)).symm
  haveI : IsAntisymm Record G :=
    ⟨fun a b hab hba => absurd (lexLe_antisymm hba.1 hab.1) hab.2⟩
  exact List.eq_of_perm_of_sorted hperm' hsorted₂ hsorted₁

/-- Witness for `C3_amended_sort_reversal`: two rows with distinct keys
come back in reversed order after the descending sort. -/
theorem C3_amended_sort_reversal_witness :
    (Records.mk ["k"] [[("k", 2)], [("k", 1)]]).data.filter
        (fun r => (["k"] : List String).all (fun k => (r.get? k).isSome)) =
      ((Records.mk ["k"] [[("k", 1)], [("k", 2)]]).data.filter
        (fun r => (["k"] : List String).all (fun k => (r.get? k).isSome))).reverse :=
  C3_amended_sort_reversal (Records.mk ["k"] [[("k", 2)], [("k", 1)]])
    (Records.mk ["k"] [[("k", 1)], [("k", 2)]])
    (Records.mk ["k"] [[("k", 2)], [("k", 1)]]) ["k"]
    (by decide) (by decide) (by decide)

/-- Reduction of an `Except` bind on a success value. -/
theorem except_bind_ok {ε α β : Type} (a : α) (f : α → Except ε β) :
    (Except.ok a >>= f : Except ε β) = f a := rfl

/-- On a row that has every column, the fill sweep of `bind_drop_as_delay`
leaves the row unchanged (only the carried values are refreshed). -/
theorem bdadRow_fst_of_full : ∀ (cols : List String) (oldest r : Record),
    (∀ c ∈ cols, (r.get? c).isSome = true) →
    (Records.bdadRow cols oldest r).1 = r
  | [], _, _, _ => rfl
  | c :: cs, oldest, r, h => by
    obtain ⟨v, hv⟩ := Option.isSome_iff_exists.mp (h c (List.mem_cons_self c cs))
    have hrest : ∀ x ∈ cs, (r.get? x).isSome = true :=
      fun x hx => h x (List.mem_cons_of_mem c hx)
    have hstep : Records.bdadRow (c :: cs) oldest r =
        Records.bdadRow cs (oldest.add c v) r := by
      simp [Records.bdadRow, hv]
    rw [hstep]
    exact bdadRow_fst_of_full cs _ r hrest

/-- On a table whose rows all have every column, the forward sweep of
`bind_drop_as_delay` is the identity. -/
theorem bdadSweep_of_full : ∀ (cols : List String) (oldest : Record)
    (l : List Record),
    (∀ r ∈ l, ∀ c ∈ cols, (r.get? c).isSome = true) →
    Records.bdadSweep cols oldest l = l
  | _, _, [], _ => rfl
  | cols, oldest, r :: rest, h => by
    have hfst := bdadRow_fst_of_full cols oldest r (h r (List.mem_cons_self r rest))
    have ih := bdadSweep_of_full cols (Records.bdadRow cols oldest r).2 rest
      (fun x hx => h x (List.mem_cons_of_mem r hx))
    simp [Records.bdadSweep, hfst, ih]

/-- Two sorted permutations of the same rows have the same key-tuple
sequence (key tuples are totally ordered, so sorting determines them). -/
theorem mapKey_eq_of_sorted_perm (keys : List String) (l₁ l₂ : List Record)
    (hp : l₁ ~ l₂)
    (h₁ : l₁.Pairwise (fun a b =>
      lexLe (pySortKey keys true a) (pySortKey keys true b) = true))
    (h₂ : l₂.Pairwise (fun a b =>
      lexLe (pySortKey keys true a) (pySortKey keys true b) = true)) :
    l₁.map (pySortKey keys true) = l₂.map (pySortKey keys true) := by
  haveI : IsAntisymm (List Int) (fun x y => lexLe x y = true) :=
    ⟨fun x y => lexLe_antisymm⟩
  have s₁ : List.Sorted (fun x y : List Int => lexLe x y = true)
      (l₁.map (pySortKey keys true)) := (List.pairwise_map).mpr h₁
  have s₂ : List.Sorted (fun x y : List Int => lexLe x y = true)
      (l₂.map (pySortKey keys true)) := (List.pairwise_map).mpr h₂
  exact List.eq_of_perm_of_sorted (hp.map _) s₁ s₂

/-- On a full row the table view is determined by the key tuple over all
columns. -/
theorem tableRow_eq_of_full (cols : List String) (r : Record)
    (h : ∀ c ∈ cols, (r.get? c).isSome = true) :
    tableRow cols r = (pySortKey cols true r).map some := by
  simp only [tableRow, pySortKey, if_pos, List.map_map]
  refine List.map_congr_left (fun c hc => ?_)
  obtain ⟨v, hv⟩ := Option.isSome_iff_exists.mp (h c hc)
  simp [hv, Record.getWithDefault, Function.comp]

/-- Claim C7 (amended): `bind_drop_as_delay` is idempotent on every Records
whose rows all carry a value for every column: the sweep then fills
nothing, and the double sort preserves the observable table content. -/
theorem C7_amended_bind_drop_idempotent_full (R : Records)
    (hne : R.columns ≠ [])
    (hfull : ∀ r ∈ R.data, ∀ c ∈ R.columns, (r.get? c).isSome = true) :
    ∃ R₁ R₂, Records.bindDropAsDelay R = .ok R₁ ∧
      Records.bindDropAsDelay R₁ = .ok R₂ ∧
      R₂.columns = R₁.columns ∧ tableView R₂ = tableView R₁ := by
  have hfull₁ : ∀ r ∈ pyStableSort R.columns false R.data,
      ∀ c ∈ R.columns, (r.get? c).isSome = true :=
    fun r hr => hfull r ((pyStableSort_perm R.columns false R.data).subset hr)
  set A := pyStableSort R.columns true (pyStableSort R.columns false R.data)
    with hA
  have hpermA : A ~ R.data :=
    (pyStableSort_perm R.columns true _).trans
      (pyStableSort_perm R.columns false _)
  have hfullA : ∀ r ∈ A, ∀ c ∈ R.columns, (r.get? c).isSome = true :=
    fun r hr => hfull r (hpermA.subset hr)
  have e₁ : Records.bindDropAsDelay R = .ok (Records.mk R.columns A) := by
    simp [Records.bindDropAsDelay, Records.sort, hne, except_bind_ok,
      bdadSweep_of_full R.columns [] _ hfull₁, hA]
  have hfull₂ : ∀ r ∈ pyStableSort R.columns false A,
      ∀ c ∈ R.columns, (r.get? c).isSome = true :=
    fun r hr => hfullA r ((pyStableSort_perm R.columns false A).subset hr)
  set B := pyStableSort R.columns true (pyStableSort R.columns false A)
    with hB
  have hpermB : B ~ A :=
    (pyStableSort_perm R.columns true _).trans
      (pyStableSort_perm R.columns false _)
  have hfullB : ∀ r ∈ B, ∀ c ∈ R.columns, (r.get? c).isSome = true :=
    fun r hr => hfullA r (hpermB.subset hr)
  have e₂ : Records.bindDropAsDelay (Records.mk R.columns A) =
      .ok (Records.mk R.columns B) := by
    simp [Records.bindDropAsDelay, Records.sort, hne, except_bind_ok,
      bdadSweep_of_full R.columns [] _ hfull₂, hB]
  refine ⟨Records.mk R.columns A, Records.mk R.columns B, e₁, e₂, rfl, ?_⟩
  have hkeys : B.map (pySortKey R.columns true) = A.map (pySortKey R.columns true) :=
    mapKey_eq_of_sorted_perm R.columns B A hpermB
      (pyStableSort_sorted R.columns true _)
      (pyStableSort_sorted R.columns true _)
  have hviewB : B.map (tableRow R.columns) =
      (B.map (pySortKey R.columns true)).map (List.map some) := by
    rw [List.map_map]
    exact List.map_congr_left
      (fun r hr => tableRow_eq_of_full R.columns r (hfullB r hr))
  have hviewA : A.map (tableRow R.columns) =
      (A.map (pySortKey R.columns true)).map (List.map some) := by
    rw [List.map_map]
    exact List.map_congr_left
      (fun r hr => tableRow_eq_of_full R.columns r (hfullA r hr))
  show B.map (tableRow R.columns) = A.map (tableRow R.columns)
  rw [hviewB, hviewA, hkeys]

/-- Witness for `C7_amended_bind_drop_idempotent_full`: a two-row table
with all cells present. -/
theorem C7_amended_bind_drop_idempotent_full_witness :
    ∃ R₁ R₂, Records.bindDropAsDelay
        (Records.mk ["a"] [[("a", 2)], [("a", 1)]]) = .ok R₁ ∧
      Records.bindDropAsDelay R₁ = .ok R₂ ∧
      R₂.columns = R₁.columns ∧ tableView R₂ = tableView R₁ :=
  C7_amended_bind_drop_idempotent_full
    (Records.mk ["a"] [[("a", 2)], [("a", 1)]]) (by decide) (by decide)

/-- Lookup after tuple-keyed dict assignment. -/
theorem aget_aset {β : Type} (k0 k : List Int) (v : β)
    (gs : List (List Int × β)) :
    Records.aget k (aset k0 v gs) =
      if k0 = k then some v else Records.aget k gs := by
  induction gs with
  | nil => by_cases h : k0 = k <;> simp [aset, Records.aget, h]
  | cons hd tl ih =>
    obtain ⟨k1, v1⟩ := hd
    by_cases h1 : k1 = k0
    · subst h1
      by_cases h2 : k1 = k
      · subst h2
        simp [aset, Records.aget]
      · simp [aset, Records.aget, h2, fun h : k1 = k => h2 h]
    · by_cases h2 : k1 = k
      · subst h2
        have h3 : ¬ k0 = k1 := fun h => h1 h.symm
        simp [aset, Records.aget, h1, h3]
      · simp [aset, Records.aget, h1, h2, ih]

/-- Lookup after index-keyed table assignment. -/
theorem nget_nset {β : Type} (k0 k : Nat) (v : β)
    (gs : List (Nat × β)) :
    nget k (nset k0 v gs) = if k0 = k then some v else nget k gs := by
  induction gs with
  | nil => by_cases h : k0 = k <;> simp [nset, nget, h]
  | cons hd tl ih =>
    obtain ⟨k1, v1⟩ := hd
    by_cases h1 : k1 = k0
    · subst h1
      by_cases h2 : k1 = k
      · subst h2
        simp [nset, nget]
      · simp [nset, nget, h2, fun h : k1 = k => h2 h]
    · by_cases h2 : k1 = k
      · subst h2
        have h3 : ¬ k0 = k1 := fun h => h1 h.symm
        simp [nset, nget, h1, h3]
      · simp [nset, nget, h1, h2, ih]

/-- Position access is stable under appending on the right. -/
theorem getD_append_lt {α : Type} (d : α) :
    ∀ (l l' : List α) (n : Nat), n < l.length →
      (l ++ l').getD n d = l.getD n d
  | [], _, n, h => absurd h (by simp)
  | a :: l, l', 0, _ => rfl
  | a :: l, l', n + 1, h => by
    simpa using getD_append_lt d l l' n (by simpa using h)

/-- Position access at the appended element. -/
theorem getD_append_len {α : Type} (d : α) :
    ∀ (l : List α) (x : α), (l ++ [x]).getD l.length d = x
  | [], x => rfl
  | a :: l, x => by simp [getD_append_len d l x]

/-- Invariant of the first pass of the sequential merge: (1) the
`to_left_records` entry of a join tuple holds the store index of the LAST
installing left row (left side, merge stamp, that tuple) seen so far, with
no later installer for the tuple; (2) every right row appended to a left
row's sub-record list was appended to the latest preceding installer of its
join tuple, with no installer for that tuple strictly in between. -/
theorem seqPass1_invariant (jlk jrk : List String) :
    ∀ xs : List (Nat × Record),
      (∀ t i, Records.aget t (seqPass1 jlk jrk xs).toLeft = some i →
        ∃ a, a < xs.length ∧ (xs.getD a (0, [])).1 = i ∧
          seqInstalls jlk jrk (xs.getD a (0, [])).2 t ∧
          ∀ c, a < c → c < xs.length →
            ¬ seqInstalls jlk jrk (xs.getD c (0, [])).2 t) ∧
      (∀ ℓ j, j ∈ (nget ℓ (seqPass1 jlk jrk xs).subs).getD [] →
        ∃ a b, a < b ∧ b < xs.length ∧ (xs.getD b (0, [])).1 = j ∧
          (xs.getD a (0, [])).1 = ℓ ∧
          seqInstalls jlk jrk (xs.getD a (0, [])).2
            (seqJoinValues jlk jrk (xs.getD b (0, [])).2) ∧
          ∀ c, a < c → c < b →
            ¬ seqInstalls jlk jrk (xs.getD c (0, [])).2
              (seqJoinValues jlk jrk (xs.getD b (0, [])).2)) := by
  intro xs
  induction xs using List.reverseRecOn with
  | nil =>
    constructor
    · intro t i h
      simp [seqPass1, Records.aget] at h
    · intro ℓ j h
      simp [seqPass1, nget] at h
  | append_singleton ys x ih =>
    obtain ⟨IH1, IH2⟩ := ih
    have hstep : seqPass1 jlk jrk (ys ++ [x]) =
        seqStep jlk jrk (seqPass1 jlk jrk ys) x := by
      simp [seqPass1, List.foldl_append]
    have hglt : ∀ a, a < ys.length →
        (ys ++ [x]).getD a (0, ([] : Record)) = ys.getD a (0, []) :=
      fun a ha => getD_append_lt (0, []) ys [x] a ha
    have hglen : (ys ++ [x]).getD ys.length (0, ([] : Record)) = x :=
      getD_append_len (0, []) ys x
    have hlen : (ys ++ [x]).length = ys.length + 1 := by simp
    -- transported old conclusions, parameterized by the fact that the new
    -- element is not an installer of the relevant tuple
    have transport1 : ∀ t i, ¬ seqInstalls jlk jrk x.2 t →
        Records.aget t (seqPass1 jlk jrk ys).toLeft = some i →
          ∃ a, a < (ys ++ [x]).length ∧ ((ys ++ [x]).getD a (0, [])).1 = i ∧
            seqInstalls jlk jrk ((ys ++ [x]).getD a (0, [])).2 t ∧
            ∀ c, a < c → c < (ys ++ [x]).length →
              ¬ seqInstalls jlk jrk ((ys ++ [x]).getD c (0, [])).2 t := by
      intro t i hnot h
      obtain ⟨a, ha, hidx, hinst, hno⟩ := IH1 t i h
      refine ⟨a, by omega, by rw [hglt a ha]; exact hidx,
        by rw [hglt a ha]; exact hinst, ?_⟩
      intro c hc1 hc2
      by_cases hc : c < ys.length
      · rw [hglt c hc]
        exact hno c hc1 hc
      · have : c = ys.length := by omega
        subst this
        rw [hglen]
        exact hnot
    have transport2 :
        (∀ ℓ j, j ∈ (nget ℓ (seqPass1 jlk jrk ys).subs).getD [] →
          ∃ a b, a < b ∧ b < (ys ++ [x]).length ∧
            ((ys ++ [x]).getD b (0, [])).1 = j ∧
            ((ys ++ [x]).getD a (0, [])).1 = ℓ ∧
            seqInstalls jlk jrk ((ys ++ [x]).getD a (0, [])).2
              (seqJoinValues jlk jrk ((ys ++ [x]).getD b (0, [])).2) ∧
            ∀ c, a < c → c < b →
              ¬ seqInstalls jlk jrk ((ys ++ [x]).getD c (0, [])).2
                (seqJoinValues jlk jrk ((ys ++ [x]).getD b (0, [])).2)) := by
      intro ℓ j h
      obtain ⟨a, b, hab, hb, hjdx, hldx, hinst, hno⟩ := IH2 ℓ j h
      have ha : a < ys.length := by omega
      refine ⟨a, b, hab, by omega, by rw [hglt b hb]; exact hjdx,
        by rw [hglt a ha]; exact hldx,
        by rw [hglt a ha, hglt b hb]; exact hinst, ?_⟩
      intro c hc1 hc2
      have hc : c < ys.length := by omega
      rw [hglt c hc, hglt b hb]
      exact hno c hc1 hc2
    by_cases h1 : x.2.get? "_tmp_has_merge_stamp" = some 0
    · -- no merge stamp: state unchanged
      have hE : seqPass1 jlk jrk (ys ++ [x]) = seqPass1 jlk jrk ys := by
        rw [hstep]
        simp [seqStep, h1]
      rw [hE]
      exact ⟨fun t i h => transport1 t i (fun hi => hi.1 h1) h, transport2⟩
    · by_cases h2 : x.2.get? "_tmp_side" = some 0
      · -- installing left row
        have hE : seqPass1 jlk jrk (ys ++ [x]) =
            ⟨aset (seqJoinValues jlk jrk x.2) x.1
                (seqPass1 jlk jrk ys).toLeft,
              nset x.1 [] (seqPass1 jlk jrk ys).subs⟩ := by
          rw [hstep]
          simp [seqStep, h1, h2]
        rw [hE]
        constructor
        · intro t i h
          simp only [aget_aset] at h
          by_cases ht : seqJoinValues jlk jrk x.2 = t
          · rw [if_pos ht] at h
            refine ⟨ys.length, by omega, by rw [hglen]; exact Option.some.inj h,
              by rw [hglen]; exact ⟨h1, h2, ht⟩, ?_⟩
            intro c hc1 hc2
            omega
          · rw [if_neg ht] at h
            exact transport1 t i (fun hi => ht hi.2.2) h
        · intro ℓ j h
          simp only [nget_nset] at h
          by_cases hℓ : x.1 = ℓ
          · rw [if_pos hℓ] at h
            simp at h
          · rw [if_neg hℓ] at h
            exact transport2 ℓ j h
      · -- right row or other: to_left_records unchanged
        by_cases h3 : x.2.get? "_tmp_side" = some 1
        · cases hm : Records.aget (seqJoinValues jlk jrk x.2)
              (seqPass1 jlk jrk ys).toLeft with
          | none =>
            have hE : seqPass1 jlk jrk (ys ++ [x]) = seqPass1 jlk jrk ys := by
              rw [hstep]
              simp [seqStep, h1, h2, h3, hm]
            rw [hE]
            exact ⟨fun t i h => transport1 t i (fun hi => h2 hi.2.1) h,
              transport2⟩
          | some ℓ0 =>
            have hE : seqPass1 jlk jrk (ys ++ [x]) =
                ⟨(seqPass1 jlk jrk ys).toLeft,
                  nset ℓ0 ((nget ℓ0 (seqPass1 jlk jrk ys).subs).getD [] ++ [x.1])
                    (seqPass1 jlk jrk ys).subs⟩ := by
              rw [hstep]
              simp [seqStep, h1, h2, h3, hm]
            rw [hE]
            constructor
            · exact fun t i h => transport1 t i (fun hi => h2 hi.2.1) h
            · intro ℓ j h
              simp only [nget_nset] at h
              by_cases hℓ : ℓ0 = ℓ
              · rw [if_pos hℓ] at h
                simp only [Option.getD_some, List.mem_append,
                  List.mem_singleton] at h
                rcases h with hold | hnew
                · exact transport2 ℓ j (hℓ ▸ hold)
                · subst hnew
                  obtain ⟨a, ha, hidx, hinst, hno⟩ :=
                    IH1 (seqJoinValues jlk jrk x.2) ℓ0 hm
                  refine ⟨a, ys.length, ha, by omega,
                    by rw [hglen], by rw [hglt a ha]; exact hℓ ▸ hidx, ?_, ?_⟩
                  · rw [hglt a ha, hglen]
                    exact hinst
                  · intro c hc1 hc2
                    have hc : c < ys.length := by omega
                    rw [hglt c hc, hglen]
                    exact hno c hc1 hc
              · rw [if_neg hℓ] at h
                exact transport2 ℓ j h
        · -- neither side value: state unchanged
          have hE : seqPass1 jlk jrk (ys ++ [x]) = seqPass1 jlk jrk ys := by
            rw [hstep]
            simp [seqStep, h1, h2, h3]
          rw [hE]
          exact ⟨fun t i h => transport1 t i (fun hi => h2 hi.2.1) h,
            transport2⟩

/-- Claim C2 (amended): in the first pass of the sequential merge
(`seqPass1`, used by `Records.merge_sequencial` on the stamp-sorted
concatenated table), a right row appended to a left row's sub-record list is
attached to THE latest preceding installing left row (left side with a
merge stamp) whose join tuple equals its own — regardless of whether that
left row already has attached rights: some earlier position `a` holds that
left row and no installing left row with the same tuple lies strictly
between `a` and the right row's position.  Emission then pairs each left
row with its earliest attached right only (one row per attached right when
`how = left_use_latest`); a right row whose latest matching left is already
taken is dropped rather than re-bound to an earlier unbound left. -/
theorem C2_amended_latest_left_binding (jlk jrk : List String)
    (xs : List (Nat × Record)) (ℓ j : Nat)
    (hj : j ∈ (nget ℓ (seqPass1 jlk jrk xs).subs).getD []) :
    ∃ a b, a < b ∧ b < xs.length ∧ (xs.getD b (0, [])).1 = j ∧
      (xs.getD a (0, [])).1 = ℓ ∧
      seqInstalls jlk jrk (xs.getD a (0, [])).2
        (seqJoinValues jlk jrk (xs.getD b (0, [])).2) ∧
      ∀ c, a < c → c < b →
        ¬ seqInstalls jlk jrk (xs.getD c (0, [])).2
          (seqJoinValues jlk jrk (xs.getD b (0, [])).2) :=
  (seqPass1_invariant jlk jrk xs).2 ℓ j hj

/-- Witness for `C2_amended_latest_left_binding`: a tagged left row at
store index 0 followed by a tagged right row at store index 1 with the same
join key; the right is attached to the left. -/
theorem C2_amended_latest_left_binding_witness :
    ∃ a b, a < b ∧
      b < ([((0 : Nat), [("k", (7 : Int)), ("_tmp_side", 0),
             ("_tmp_has_merge_stamp", 1)]),
            (1, [("k", 7), ("_tmp_side", 1),
             ("_tmp_has_merge_stamp", 1)])] : List (Nat × Record)).length ∧
      (([((0 : Nat), [("k", (7 : Int)), ("_tmp_side", 0),
             ("_tmp_has_merge_stamp", 1)]),
            (1, [("k", 7), ("_tmp_side", 1),
             ("_tmp_has_merge_stamp", 1)])] : List (Nat × Record)).getD b
        (0, [])).1 = 1 ∧
      (([((0 : Nat), [("k", (7 : Int)), ("_tmp_side", 0),
             ("_tmp_has_merge_stamp", 1)]),
            (1, [("k", 7), ("_tmp_side", 1),
             ("_tmp_has_merge_stamp", 1)])] : List (Nat × Record)).getD a
        (0, [])).1 = 0 ∧
      seqInstalls ["k"] ["k"]
        (([((0 : Nat), [("k", (7 : Int)), ("_tmp_side", 0),
             ("_tmp_has_merge_stamp", 1)]),
            (1, [("k", 7), ("_tmp_side", 1),
             ("_tmp_has_merge_stamp", 1)])] : List (Nat × Record)).getD a
          (0, [])).2
        (seqJoinValues ["k"] ["k"]
          (([((0 : Nat), [("k", (7 : Int)), ("_tmp_side", 0),
               ("_tmp_has_merge_stamp", 1)]),
              (1, [("k", 7), ("_tmp_side", 1),
               ("_tmp_has_merge_stamp", 1)])] : List (Nat × Record)).getD b
            (0, [])).2) ∧
      ∀ c, a < c → c < b →
        ¬ seqInstalls ["k"] ["k"]
          (([((0 : Nat), [("k", (7 : Int)), ("_tmp_side", 0),
               ("_tmp_has_merge_stamp", 1)]),
              (1, [("k", 7), ("_tmp_side", 1),
               ("_tmp_has_merge_stamp", 1)])] : List (Nat × Record)).getD c
            (0, [])).2
          (seqJoinValues ["k"] ["k"]
            (([((0 : Nat), [("k", (7 : Int)), ("_tmp_side", 0),
                 ("_tmp_has_merge_stamp", 1)]),
                (1, [("k", 7), ("_tmp_side", 1),
                 ("_tmp_has_merge_stamp", 1)])] : List (Nat × Record)).getD b
              (0, [])).2) :=
  C2_amended_latest_left_binding ["k"] ["k"]
    [((0 : Nat), [("k", (7 : Int)), ("_tmp_side", 0),
       ("_tmp_has_merge_stamp", 1)]),
     (1, [("k", 7), ("_tmp_side", 1), ("_tmp_has_merge_stamp", 1)])]
    0 1 (by decide)

end Caret
